import Mathlib

/-!
# fidx: index a directory tree, score the paths against a filter, rank them

A verification development for `src/main.cc`.

Modelling conventions.

* A `std::string` is a `List Char`; every list element stands for one `char` of the string, so
  positions and lengths are the ones `std::string` reports.
* `size_t` values (positions, lengths) are natural numbers: every position the code computes is
  at most the length of a string, so no `size_t` operation wraps.
* `int` is 32 bits wide.  An `int` variable is an integer in `[-2^31, 2^31)`; assigning a value
  that does not fit keeps the value reduced modulo `2^32` (`toInt`).
* The file system is a finite tree (`FsNode`) that records what `opendir`, `readdir_r` and `stat`
  answer; diagnostic output on `std::cerr` is not modelled.
* `std::sort` is modelled by its postcondition (`StdSortPost`): the library fixes the result only
  up to the order of elements that compare equivalent.
-/

namespace Fidx

/-! ## Strings -/

/-- A `std::string`, one list element per `char`. -/
abbrev CxxString := List Char

/-- The call `input.find(chr, pos)` of `std::string`: the least position `loc` with `pos ≤ loc` and
`input[loc] == chr`; `none` stands for `std::string::npos`. -/
def find : CxxString → Char → Nat → Option Nat
  | [], _, _ => none
  | x :: xs, chr, 0 => if x = chr then some 0 else (find xs chr 0).map (· + 1)
  | _ :: xs, chr, pos + 1 => (find xs chr pos).map (· + 1)

/-- The value an `int` holds after it is assigned the integer `z` (32-bit two's complement). -/
def toInt (z : Int) : Int := Int.bmod z (2 ^ 32)

/-! ## Matcher / scorer -/

/-- The `for (auto chr : filter)` loop of `MatchesFilter`, started with the characters of the
filter that are still to be matched, the cursor `off` and the running total `count`. -/
def MatchesFilterLoop (input : CxxString) : CxxString → Nat → Int → Int
  | [], _, count => count
  | chr :: rest, off, count =>
    match find input chr off with
    | none => -1
    | some loc => MatchesFilterLoop input rest (loc + 1) (toInt (count + ((loc - off : Nat) : Int)))

/-- The function `int MatchesFilter(const std::string &filter, const std::string &input)`. -/
def MatchesFilter (filter input : CxxString) : Int :=
  MatchesFilterLoop input filter 0 0

/-- The `for (const auto &str : index)` loop of `FilterIndex`; `filtered` is the vector built so
far. -/
def FilterIndexLoop (filter : CxxString) :
    List CxxString → List (Int × CxxString) → List (Int × CxxString)
  | [], filtered => filtered
  | str :: rest, filtered =>
    let score := MatchesFilter filter str
    if score < 0 then FilterIndexLoop filter rest filtered
    else FilterIndexLoop filter rest (filtered ++ [(score, str)])

/-- The function `FilterIndex(filter, index)`. -/
def FilterIndex (filter : CxxString) (index : List CxxString) : List (Int × CxxString) :=
  FilterIndexLoop filter index []

/-! ## Ranker -/

/-- The comparison lambda handed to `std::sort` in `SortIndex`: `a.first < b.first`. -/
def SortIndexComp (a b : Int × CxxString) : Bool := decide (a.1 < b.1)

/-- Postcondition of `std::sort(first, last, comp)`: the range holds a permutation of what it held
before, and no element compares (by `comp`) less than an element at an earlier position.  Nothing
else is fixed by the library; in particular the order of equivalent elements is not. -/
def StdSortPost {α : Type} (comp : α → α → Bool) (before after : List α) : Prop :=
  after.Perm before ∧ after.Pairwise (fun x y => comp y x = false)

/-- The procedure `SortIndex(&index)`: `SortIndex before after` holds when `after` is a content the
vector may have on return, given that it held `before` on entry. -/
def SortIndex (before after : List (Int × CxxString)) : Prop :=
  StdSortPost SortIndexComp before after

instance decStdSortPost {α : Type} [DecidableEq α] (comp : α → α → Bool)
    (before after : List α) : Decidable (StdSortPost comp before after) :=
  inferInstanceAs (Decidable (after.Perm before ∧ after.Pairwise (fun x y => comp y x = false)))

instance decSortIndex (before after : List (Int × CxxString)) :
    Decidable (SortIndex before after) :=
  inferInstanceAs (Decidable (StdSortPost SortIndexComp before after))

/-! ## Indexer -/

/-- What the file system answers for one directory entry (or for the root path).

* `noStat`: `stat` on the path returns `-1`;
* `file`: `stat` succeeds and `S_ISDIR` is false;
* `noOpen`: `stat` succeeds with `S_ISDIR` true, and `opendir` returns `nullptr`;
* `dir ents`: `stat` succeeds with `S_ISDIR` true, `opendir` succeeds and `readdir_r` yields the
  entries `ents` (`d_name` and what lies behind it), in this order, before it reports the end. -/
inductive FsNode where
  | noStat : FsNode
  | file : FsNode
  | noOpen : FsNode
  | dir : List (CxxString × FsNode) → FsNode

/-- Whether `stat(full_path.c_str(), &sb)` returns `-1`. -/
def statFails : FsNode → Bool
  | .noStat => true
  | _ => false

/-- The macro `S_ISDIR(sb.st_mode)` on the answer of a successful `stat`. -/
def S_ISDIR : FsNode → Bool
  | .noOpen => true
  | .dir _ => true
  | _ => false

/-- The constant `PATH_MAX` of `<limits.h>` on Linux.  `stat` and `opendir` fail with
`ENAMETOOLONG` on a path of `PATH_MAX` characters or more, so every path that the walk puts into
the index, having passed `stat`, is shorter. -/
def PATH_MAX : Nat := 4096

/-- The global `ignore_list`. -/
def ignore_list : List CxxString := [".git".toList]

mutual
/-- The procedure `BuildIndexHelper(path, index)`, with the vector behind `index` passed in and
returned.  The first argument is what the file system holds at `path`: `opendir(path)` succeeds
exactly on `FsNode.dir`. -/
def BuildIndexHelper : FsNode → CxxString → List CxxString → List CxxString
  | .dir ents, path, index => readLoop ents path index
  | _, _, index => index
/-- The `while (true)` loop of `BuildIndexHelper`, started with the entries that `readdir_r` still
has to yield; `file` is `result->d_name`. -/
def readLoop : List (CxxString × FsNode) → CxxString → List CxxString → List CxxString
  | [], _, index => index
  | (file, node) :: rest, path, index =>
    if file = ".".toList ∨ file = "..".toList then readLoop rest path index
    else if file ∈ ignore_list then readLoop rest path index
    else
      let full_path := path ++ "/".toList ++ file
      if statFails node then readLoop rest path index
      else if S_ISDIR node then
        readLoop rest path (BuildIndexHelper node full_path (index ++ [full_path]))
      else readLoop rest path (index ++ [full_path])
end

/-- The function `BuildIndex(path)`, on the file system in which `path` names `root`. -/
def BuildIndex (root : FsNode) (path : CxxString) : List CxxString :=
  BuildIndexHelper root path []

/-! ## Specification-side notions -/

/-- Length of the shortest prefix of `text` that has `filter` as a subsequence, if `filter` is a
subsequence of `text` at all (the reading of "subsequence match" in the glossary, by plain
recursion over the text). -/
def shortestPrefixLen : CxxString → CxxString → Option Nat
  | [], _ => some 0
  | _ :: _, [] => none
  | c :: g, x :: q =>
    if x = c then (shortestPrefixLen g q).map (· + 1)
    else (shortestPrefixLen (c :: g) q).map (· + 1)

/-- The number `e` is the length of the shortest prefix of `p` that has `f` as a subsequence. -/
def IsShortestPrefix (f p : CxxString) (e : Nat) : Prop :=
  e ≤ p.length ∧ f.Sublist (p.take e) ∧ ∀ n, f.Sublist (p.take n) → e ≤ n

instance decIsShortestPrefix (f p : CxxString) (e : Nat) : Decidable (IsShortestPrefix f p e) :=
  decidable_of_iff
    (e ≤ p.length ∧ f.Sublist (p.take e) ∧ ∀ n, n < e → ¬ f.Sublist (p.take n))
    (by
      unfold IsShortestPrefix
      constructor
      · rintro ⟨h1, h2, h3⟩
        exact ⟨h1, h2, fun n hn => Nat.le_of_not_lt (fun hlt => h3 n hlt hn)⟩
      · rintro ⟨h1, h2, h3⟩
        exact ⟨h1, h2, fun n hlt hn => absurd (h3 n hn) (Nat.not_le_of_lt hlt)⟩)

/-- How many times `x` occurs in the list `l`. -/
def occurrences {α : Type} [DecidableEq α] (x : α) (l : List α) : Nat :=
  (l.filter (fun y => decide (y = x))).length

/-- The entries of score `s`, in the order in which the list holds them. -/
def entriesOfScore (s : Int) (l : List (Int × CxxString)) : List (Int × CxxString) :=
  l.filter (fun e => decide (e.1 = s))

/-- The list `after` keeps the entries of every score in the relative order they have in
`before`: what a stable sort by score guarantees. -/
def KeepsTieOrder (before after : List (Int × CxxString)) : Prop :=
  ∀ s : Int, entriesOfScore s after = entriesOfScore s before

instance decKeepsTieOrder (before after : List (Int × CxxString)) :
    Decidable (KeepsTieOrder before after) :=
  decidable_of_iff
    (∀ e ∈ before ++ after, entriesOfScore e.1 after = entriesOfScore e.1 before)
    (by
      unfold KeepsTieOrder
      constructor
      · intro h s
        by_cases hs : ∃ e ∈ before ++ after, e.1 = s
        · obtain ⟨e, he, rfl⟩ := hs
          exact h e he
        · have hnone : ∀ l : List (Int × CxxString), (∀ e ∈ l, e ∈ before ++ after) →
              entriesOfScore s l = [] := by
            intro l hl
            unfold entriesOfScore
            rw [List.filter_eq_nil_iff]
            intro e he hes
            exact hs ⟨e, hl e he, of_decide_eq_true hes⟩
          rw [hnone after (fun e he => List.mem_append_right _ he),
            hnone before (fun e he => List.mem_append_left _ he)]
      · intro h e _
        exact h e.1)

/-- An index of seventeen one-letter paths, `a` to `q`. -/
def seventeenPaths : List CxxString :=
  ["a", "b", "c", "d", "e", "f", "g", "h", "i", "j", "k", "l", "m", "n", "o", "p", "q"].map
    String.toList

/-- The seventeen paths of `seventeenPaths`, each with score `0`, in the order in which one
median-of-three partitioning pass of a quicksort leaves seventeen equal keys: the middle entry is
swapped to the front, then the entries are swapped pairwise from both ends. -/
def seventeenRanked : List (Int × CxxString) :=
  ["i", "q", "p", "o", "n", "m", "l", "k", "j", "a", "h", "g", "f", "e", "d", "c", "b"].map
    (fun p => ((0 : Int), p.toList))

/-- Insertion of an entry in front of the first entry whose score is not smaller. -/
def insertByScore (a : Int × CxxString) : List (Int × CxxString) → List (Int × CxxString)
  | [] => [a]
  | b :: l => if a.1 ≤ b.1 then a :: b :: l else b :: insertByScore a l

/-- The stable ranking of a list of scored entries (insertion sort on the score). -/
def stableRank : List (Int × CxxString) → List (Int × CxxString)
  | [] => []
  | a :: l => insertByScore a (stableRank l)

/-- Whether the walk passes over a directory entry of this name before it looks at the entry:
the names `.` and `..` and the names of the ignore set. -/
def skipsEntry (file : CxxString) : Bool :=
  decide (file = ".".toList ∨ file = "..".toList) || decide (file ∈ ignore_list)

/-- The components of a path: the pieces between its `/` separators.  The last component is the
base name; a path lies below a directory exactly when the directory's base name is one of the
earlier components. -/
def pathComponents : CxxString → List CxxString
  | [] => [[]]
  | c :: rest =>
    if c = '/' then [] :: pathComponents rest
    else
      match pathComponents rest with
      | [] => [[c]]
      | comp :: comps => (c :: comp) :: comps

mutual
/-- No entry name in the tree contains the separator `/` (the file system never yields such a
`d_name`). -/
def namesWellFormed : FsNode → Bool
  | .dir ents => namesWellFormedEntries ents
  | _ => true
/-- The entries of one directory, and all below them, have names free of `/`. -/
def namesWellFormedEntries : List (CxxString × FsNode) → Bool
  | [] => true
  | (name, node) :: rest =>
    decide ('/' ∉ name) && namesWellFormed node && namesWellFormedEntries rest
end

/-- The directory of end-to-end scenario 1, as `readdir_r` may list it: the files `main.cc` and
`README.md` and the subdirectory `.git` that holds the file `config`. -/
def scenario1 : List (CxxString × FsNode) :=
  [ (".".toList, .dir []),
    ("..".toList, .dir []),
    ("main.cc".toList, .file),
    ("README.md".toList, .file),
    (".git".toList, .dir [(".".toList, .dir []), ("..".toList, .dir []), ("config".toList, .file)]) ]

/-! ## Lemmas on `find` and the matcher -/

theorem find_eq_none_iff (c : Char) : ∀ (s : CxxString) (pos : Nat),
    find s c pos = none ↔ ∀ i, pos ≤ i → s[i]? ≠ some c := by
  intro s
  induction s with
  | nil => intro pos; simp [find]
  | cons x xs ih =>
    intro pos
    cases pos with
    | zero =>
      by_cases hx : x = c
      · simp only [find, if_pos hx]
        constructor
        · intro h; cases h
        · intro h
          exact absurd (by simp [hx]) (h 0 (le_refl _))
      · simp only [find, if_neg hx, Option.map_eq_none', ih 0]
        constructor
        · intro h i _
          cases i with
          | zero => simpa using hx
          | succ i => simpa using h i (Nat.zero_le _)
        · intro h i _
          simpa using h (i + 1) (Nat.zero_le _)
    | succ pos =>
      simp only [find, Option.map_eq_none', ih pos]
      constructor
      · intro h i hi
        cases i with
        | zero => omega
        | succ i => simpa using h i (by omega)
      · intro h i hi
        simpa using h (i + 1) (by omega)

theorem find_eq_some_iff (c : Char) : ∀ (s : CxxString) (pos loc : Nat),
    find s c pos = some loc ↔
      pos ≤ loc ∧ s[loc]? = some c ∧ ∀ i, pos ≤ i → i < loc → s[i]? ≠ some c := by
  intro s
  induction s with
  | nil => intro pos loc; simp [find]
  | cons x xs ih =>
    intro pos loc
    cases pos with
    | zero =>
      by_cases hx : x = c
      · simp only [find, if_pos hx, Option.some.injEq]
        constructor
        · intro h
          subst h
          exact ⟨le_refl _, by simp [hx], fun i _ hi => by omega⟩
        · rintro ⟨_, _, h3⟩
          cases loc with
          | zero => rfl
          | succ loc => exact absurd (by simp [hx]) (h3 0 (le_refl _) (by omega))
      · simp only [find, if_neg hx, Option.map_eq_some']
        constructor
        · rintro ⟨a, ha, rfl⟩
          obtain ⟨_, h2, h3⟩ := (ih 0 a).1 ha
          refine ⟨Nat.zero_le _, by simpa using h2, ?_⟩
          intro i _ hi
          cases i with
          | zero => simpa using hx
          | succ i => simpa using h3 i (Nat.zero_le _) (by omega)
        · rintro ⟨_, h2, h3⟩
          cases loc with
          | zero => simp at h2; exact absurd h2 hx
          | succ loc =>
            refine ⟨loc, (ih 0 loc).2 ⟨Nat.zero_le _, by simpa using h2, ?_⟩, rfl⟩
            intro i _ hi
            simpa using h3 (i + 1) (Nat.zero_le _) (by omega)
    | succ pos =>
      simp only [find, Option.map_eq_some']
      constructor
      · rintro ⟨a, ha, rfl⟩
        obtain ⟨h1, h2, h3⟩ := (ih pos a).1 ha
        refine ⟨by omega, by simpa using h2, ?_⟩
        intro i hi1 hi2
        cases i with
        | zero => omega
        | succ i => simpa using h3 i (by omega) (by omega)
      · rintro ⟨h1, h2, h3⟩
        cases loc with
        | zero => omega
        | succ loc =>
          refine ⟨loc, (ih pos loc).2 ⟨by omega, by simpa using h2, ?_⟩, rfl⟩
          intro i hi1 hi2
          simpa using h3 (i + 1) (by omega) (by omega)

theorem shortestPrefixLen_spec (q : CxxString) : ∀ (g : CxxString) (n : Nat),
    g.Sublist (q.take n) ↔ ∃ e, shortestPrefixLen g q = some e ∧ e ≤ n := by
  induction q with
  | nil =>
    intro g n
    cases g with
    | nil => simp [shortestPrefixLen]
    | cons c g => simp [shortestPrefixLen]
  | cons x q ih =>
    intro g n
    cases g with
    | nil => simp [shortestPrefixLen]
    | cons c g =>
      cases n with
      | zero =>
        by_cases hx : x = c <;> simp [shortestPrefixLen, hx]
      | succ n =>
        by_cases hx : x = c
        · subst hx
          simp only [List.take_succ_cons, List.cons_sublist_cons, shortestPrefixLen, if_true,
            Option.map_eq_some', ih g n]
          constructor
          · rintro ⟨e, he, hen⟩
            exact ⟨e + 1, ⟨e, he, rfl⟩, by omega⟩
          · rintro ⟨e, ⟨a, ha, rfl⟩, hen⟩
            exact ⟨a, ha, by omega⟩
        · have hsub : (c :: g).Sublist (x :: q.take n) ↔ (c :: g).Sublist (q.take n) := by
            rw [List.sublist_cons_iff]
            constructor
            · rintro (h | ⟨r, hr, _⟩)
              · exact h
              · exact absurd (List.cons.inj hr).1.symm hx
            · exact fun h => Or.inl h
          simp only [List.take_succ_cons, hsub, shortestPrefixLen, if_neg hx,
            Option.map_eq_some', ih (c :: g) n]
          constructor
          · rintro ⟨e, he, hen⟩
            exact ⟨e + 1, ⟨e, he, rfl⟩, by omega⟩
          · rintro ⟨e, ⟨a, ha, rfl⟩, hen⟩
            exact ⟨a, ha, by omega⟩

theorem find_shortestPrefixLen (c : Char) (g : CxxString) : ∀ (input : CxxString) (off : Nat),
    match find input c off with
    | none => shortestPrefixLen (c :: g) (input.drop off) = none
    | some loc => off ≤ loc ∧ loc < input.length ∧
        shortestPrefixLen (c :: g) (input.drop off) =
          (shortestPrefixLen g (input.drop (loc + 1))).map (· + (loc + 1 - off)) := by
  intro input
  induction input with
  | nil => intro off; simp [find, shortestPrefixLen]
  | cons x xs ih =>
    intro off
    cases off with
    | zero =>
      by_cases hx : x = c
      · simp [find, shortestPrefixLen, hx]
      · have h := ih 0
        simp only [find, if_neg hx]
        cases hf : find xs c 0 with
        | none =>
          simp only [hf, List.drop_zero] at h
          simp [shortestPrefixLen, hx, h]
        | some loc =>
          simp only [hf, List.drop_zero] at h
          obtain ⟨_, h2, h3⟩ := h
          simp only [Option.map_some', List.drop_zero, shortestPrefixLen, if_neg hx, h3,
            List.drop_succ_cons, Option.map_map, List.length_cons]
          refine ⟨by omega, by omega, ?_⟩
          congr 1
      | succ off =>
        have h := ih off
        simp only [find]
        cases hf : find xs c off with
        | none =>
          simp only [hf] at h
          simpa using h
        | some loc =>
          simp only [hf] at h
          obtain ⟨h1, h2, h3⟩ := h
          simp only [Option.map_some', List.drop_succ_cons, h3, List.length_cons]
          refine ⟨by omega, by omega, ?_⟩
          congr 1
          funext e
          omega

theorem toInt_toInt (z : Int) : toInt (toInt z) = toInt z := by
  simp [toInt]

theorem toInt_of_range {z : Int} (h0 : 0 ≤ z) (h1 : z < 2 ^ 31) : toInt z = z := by
  unfold toInt
  rw [Int.bmod_def]
  have hm : z % ((2 ^ 32 : Nat) : Int) = z := Int.emod_eq_of_lt h0 (by norm_num; omega)
  rw [hm, if_pos (by norm_num; omega)]

theorem MatchesFilterLoop_eq (input : CxxString) : ∀ (g : CxxString) (off : Nat) (count : Int),
    toInt count = count →
    MatchesFilterLoop input g off count =
      match shortestPrefixLen g (input.drop off) with
      | none => -1
      | some e => toInt (count + ((e : Int) - (g.length : Int))) := by
  intro g
  induction g with
  | nil =>
    intro off count hc
    simp [MatchesFilterLoop, shortestPrefixLen, hc]
  | cons c g ih =>
    intro off count hc
    have h := find_shortestPrefixLen c g input off
    simp only [MatchesFilterLoop]
    cases hf : find input c off with
    | none =>
      simp only [hf] at h
      simp [h]
    | some loc =>
      simp only [hf] at h
      obtain ⟨h1, _, h3⟩ := h
      simp only [h3]
      rw [ih (loc + 1) _ (toInt_toInt _)]
      cases shortestPrefixLen g (input.drop (loc + 1)) with
      | none => simp
      | some e =>
        simp only [Option.map_some', toInt]
        rw [Int.bmod_add_bmod_congr]
        congr 1
        simp only [List.length_cons]
        omega

/-- The matcher in closed form: `-1` when the filter is no subsequence of the input, and otherwise
the `int` that holds (length of the shortest matching prefix) minus (length of the filter). -/
theorem MatchesFilter_eq (f p : CxxString) :
    MatchesFilter f p =
      match shortestPrefixLen f p with
      | none => -1
      | some e => toInt ((e : Int) - (f.length : Int)) := by
  unfold MatchesFilter
  rw [MatchesFilterLoop_eq p f 0 0 (by decide)]
  simp

theorem shortestPrefixLen_isSome_iff (f p : CxxString) :
    f.Sublist p ↔ ∃ e, shortestPrefixLen f p = some e := by
  have h := shortestPrefixLen_spec p f p.length
  rw [List.take_length] at h
  rw [h]
  constructor
  · rintro ⟨e, he, _⟩
    exact ⟨e, he⟩
  · rintro ⟨e, he⟩
    refine ⟨e, he, ?_⟩
    have h2 := (shortestPrefixLen_spec p f e).2 ⟨e, he, le_refl _⟩
    have h3 : f.Sublist (p.take p.length) := by
      rw [List.take_length]
      exact h2.trans (List.take_sublist _ _)
    obtain ⟨e2, he2, hle⟩ := (shortestPrefixLen_spec p f p.length).1 h3
    rw [he] at he2
    cases he2
    exact hle

theorem shortestPrefixLen_isShortest {f p : CxxString} {e : Nat}
    (h : shortestPrefixLen f p = some e) : IsShortestPrefix f p e := by
  have hsub : f.Sublist (p.take e) := (shortestPrefixLen_spec p f e).2 ⟨e, h, le_refl _⟩
  refine ⟨?_, hsub, ?_⟩
  · have h3 : f.Sublist (p.take p.length) := by
      rw [List.take_length]
      exact hsub.trans (List.take_sublist _ _)
    obtain ⟨e2, he2, hle⟩ := (shortestPrefixLen_spec p f p.length).1 h3
    rw [h] at he2
    cases he2
    exact hle
  · intro n hn
    obtain ⟨e2, he2, hle⟩ := (shortestPrefixLen_spec p f n).1 hn
    rw [h] at he2
    cases he2
    exact hle

theorem IsShortestPrefix.unique {f p : CxxString} {e e2 : Nat}
    (h : IsShortestPrefix f p e) (h2 : IsShortestPrefix f p e2) : e = e2 :=
  Nat.le_antisymm (h.2.2 e2 h2.2.1) (h2.2.2 e h.2.1)

theorem IsShortestPrefix.length_le {f p : CxxString} {e : Nat}
    (h : IsShortestPrefix f p e) : f.length ≤ e := by
  have := h.2.1.length_le
  simp only [List.length_take] at this
  omega

theorem shortestPrefixLen_append_self (t : CxxString) : ∀ f : CxxString,
    shortestPrefixLen f (f ++ t) = some f.length := by
  intro f
  induction f with
  | nil => simp [shortestPrefixLen]
  | cons c f ih => simp [shortestPrefixLen, ih]

theorem shortestPrefixLen_replicate {b c : Char} (hbc : b ≠ c) : ∀ n : Nat,
    shortestPrefixLen [c] (List.replicate n b ++ [c]) = some (n + 1) := by
  intro n
  induction n with
  | zero => simp [shortestPrefixLen]
  | succ n ih =>
    rw [List.replicate_succ, List.cons_append, shortestPrefixLen, if_neg hbc, ih]
    rfl

/-- One filter character that first occurs behind `n` other characters scores `n`, as an `int`. -/
theorem MatchesFilter_replicate {b c : Char} (hbc : b ≠ c) (n : Nat) :
    MatchesFilter [c] (List.replicate n b ++ [c]) = toInt (n : Int) := by
  rw [MatchesFilter_eq, shortestPrefixLen_replicate hbc]
  simp only [List.length_singleton]
  congr 1
  omega

theorem toInt_two_pow_31 : toInt ((2 ^ 31 : Nat) : Int) = -2147483648 := by
  decide

/-- The bound `2^31` in the statements on the matcher is the range of `int`: a filter character
that first occurs behind `2^31` other characters gives a negative total.  No path of the index is
that long. -/
theorem MatchesFilter_beyond_int_range :
    MatchesFilter ['a'] (List.replicate (2 ^ 31) 'b' ++ ['a']) = -2147483648 :=
  (MatchesFilter_replicate (by decide) (2 ^ 31)).trans toInt_two_pow_31

/-- Without wrap-around the matcher returns the gap count itself. -/
theorem MatchesFilter_of_short {f p : CxxString} {e : Nat} (hp : p.length < 2 ^ 31)
    (h : shortestPrefixLen f p = some e) :
    MatchesFilter f p = (e : Int) - (f.length : Int) ∧ f.length ≤ e ∧ e ≤ p.length := by
  have hs := shortestPrefixLen_isShortest h
  have h1 := hs.length_le
  have h2 := hs.1
  refine ⟨?_, h1, h2⟩
  rw [MatchesFilter_eq, h]
  exact toInt_of_range (by omega) (by omega)

theorem MatchesFilter_nonneg_of_short {f p : CxxString} (hp : p.length < 2 ^ 31)
    (hsub : f.Sublist p) : 0 ≤ MatchesFilter f p := by
  obtain ⟨e, he⟩ := (shortestPrefixLen_isSome_iff f p).1 hsub
  have h := MatchesFilter_of_short hp he
  omega

theorem MatchesFilter_eq_neg_one {f p : CxxString} (h : ¬ f.Sublist p) :
    MatchesFilter f p = -1 := by
  rw [MatchesFilter_eq]
  cases hs : shortestPrefixLen f p with
  | none => rfl
  | some e => exact absurd ((shortestPrefixLen_isSome_iff f p).2 ⟨e, hs⟩) h

theorem sublist_of_MatchesFilter_ne {f p : CxxString} (h : MatchesFilter f p ≠ -1) :
    ∃ e, shortestPrefixLen f p = some e := by
  rw [MatchesFilter_eq] at h
  cases hs : shortestPrefixLen f p with
  | none => rw [hs] at h; exact absurd rfl h
  | some e => exact ⟨e, rfl⟩

theorem sublist_of_MatchesFilter_nonneg {f p : CxxString} (h : 0 ≤ MatchesFilter f p) :
    f.Sublist p :=
  (shortestPrefixLen_isSome_iff f p).2 (sublist_of_MatchesFilter_ne (by omega))

theorem FilterIndexLoop_eq (f : CxxString) : ∀ (index : List CxxString)
    (filtered : List (Int × CxxString)),
    FilterIndexLoop f index filtered =
      filtered ++ index.filterMap
        (fun str => if MatchesFilter f str < 0 then none else some (MatchesFilter f str, str)) := by
  intro index
  induction index with
  | nil => intro filtered; simp [FilterIndexLoop]
  | cons str rest ih =>
    intro filtered
    by_cases h : MatchesFilter f str < 0
    · simp [FilterIndexLoop, h, ih, List.filterMap_cons]
    · simp [FilterIndexLoop, h, ih, List.filterMap_cons]

theorem FilterIndex_eq (f : CxxString) (index : List CxxString) :
    FilterIndex f index = index.filterMap
      (fun str => if MatchesFilter f str < 0 then none else some (MatchesFilter f str, str)) := by
  simp [FilterIndex, FilterIndexLoop_eq]

theorem mem_FilterIndex {f : CxxString} {index : List CxxString} {s : Int} {p : CxxString} :
    (s, p) ∈ FilterIndex f index ↔ p ∈ index ∧ s = MatchesFilter f p ∧ 0 ≤ s := by
  rw [FilterIndex_eq, List.mem_filterMap]
  constructor
  · rintro ⟨a, ha, h⟩
    by_cases hneg : MatchesFilter f a < 0
    · simp [hneg] at h
    · simp only [if_neg hneg, Option.some.injEq, Prod.mk.injEq] at h
      obtain ⟨h1, h2⟩ := h
      subst h2
      exact ⟨ha, h1.symm, by omega⟩
  · rintro ⟨hp, hs, h0⟩
    refine ⟨p, hp, ?_⟩
    have : ¬ MatchesFilter f p < 0 := by omega
    simp [this, hs]

/-! ## Lemmas on the ranker -/

theorem SortIndex.perm {before after : List (Int × CxxString)} (h : SortIndex before after) :
    after.Perm before := h.1

theorem SortIndex.ascending {before after : List (Int × CxxString)} (h : SortIndex before after) :
    after.Pairwise (fun x y => x.1 ≤ y.1) := by
  refine h.2.imp ?_
  intro x y hxy
  simp only [SortIndexComp, decide_eq_false_iff_not, not_lt] at hxy
  exact hxy

theorem SortIndex_of_perm_sorted {before after : List (Int × CxxString)}
    (hp : after.Perm before) (hs : after.Pairwise (fun x y => x.1 ≤ y.1)) :
    SortIndex before after := by
  refine ⟨hp, hs.imp ?_⟩
  intro x y hxy
  simp only [SortIndexComp, decide_eq_false_iff_not, not_lt]
  exact hxy

theorem insertByScore_perm (a : Int × CxxString) : ∀ l, (insertByScore a l).Perm (a :: l) := by
  intro l
  induction l with
  | nil => exact List.Perm.refl _
  | cons b l ih =>
    by_cases h : a.1 ≤ b.1
    · simp [insertByScore, h]
    · simp only [insertByScore, if_neg h]
      exact (List.Perm.cons b ih).trans (List.Perm.swap a b l)

theorem stableRank_perm : ∀ l, (stableRank l).Perm l := by
  intro l
  induction l with
  | nil => exact List.Perm.refl _
  | cons a l ih => exact (insertByScore_perm a _).trans (List.Perm.cons a ih)

theorem insertByScore_sorted (a : Int × CxxString) : ∀ l,
    l.Pairwise (fun x y => x.1 ≤ y.1) → (insertByScore a l).Pairwise (fun x y => x.1 ≤ y.1) := by
  intro l
  induction l with
  | nil => intro _; simp [insertByScore]
  | cons b l ih =>
    intro hl
    rw [List.pairwise_cons] at hl
    by_cases h : a.1 ≤ b.1
    · simp only [insertByScore, if_pos h, List.pairwise_cons]
      refine ⟨?_, hl⟩
      intro y hy
      rcases List.mem_cons.1 hy with rfl | hy
      · exact h
      · exact le_trans h (hl.1 y hy)
    · simp only [insertByScore, if_neg h, List.pairwise_cons]
      refine ⟨?_, ih hl.2⟩
      intro y hy
      rcases List.mem_cons.1 ((insertByScore_perm a l).mem_iff.1 hy) with rfl | hy
      · omega
      · exact hl.1 y hy

theorem stableRank_sorted : ∀ l, (stableRank l).Pairwise (fun x y => x.1 ≤ y.1) := by
  intro l
  induction l with
  | nil => simp [stableRank]
  | cons a l ih => exact insertByScore_sorted a _ ih

theorem entriesOfScore_insertByScore (s : Int) (a : Int × CxxString) : ∀ l,
    l.Pairwise (fun x y => x.1 ≤ y.1) →
    entriesOfScore s (insertByScore a l) = entriesOfScore s (a :: l) := by
  intro l
  induction l with
  | nil => intro _; rfl
  | cons b l ih =>
    intro hl
    rw [List.pairwise_cons] at hl
    by_cases h : a.1 ≤ b.1
    · simp [insertByScore, h]
    · have ih2 := ih hl.2
      simp only [entriesOfScore] at ih2 ⊢
      simp only [insertByScore, if_neg h]
      by_cases ha : a.1 = s
      · have hb : ¬ b.1 = s := by omega
        simp only [List.filter_cons, hb, decide_False, Bool.false_eq_true, if_false, ih2]
      · have ih3 : List.filter (fun e => decide (e.1 = s)) (insertByScore a l) =
            List.filter (fun e => decide (e.1 = s)) l := by
          rw [ih2, List.filter_cons]
          simp [ha]
        simp only [List.filter_cons, ha, decide_False, Bool.false_eq_true, if_false, ih3]

theorem stableRank_keepsTieOrder (l : List (Int × CxxString)) : KeepsTieOrder l (stableRank l) := by
  intro s
  induction l with
  | nil => rfl
  | cons a l ih =>
    simp only [stableRank]
    rw [entriesOfScore_insertByScore s a _ (stableRank_sorted l)]
    simp only [entriesOfScore, List.filter_cons] at ih ⊢
    rw [ih]

/-- The ranker always has a permitted result: the stable ranking is one. -/
theorem SortIndex_stableRank (l : List (Int × CxxString)) : SortIndex l (stableRank l) :=
  SortIndex_of_perm_sorted (stableRank_perm l) (stableRank_sorted l)

theorem pairwise_getElem? {α : Type} {R : α → α → Prop} {l : List α} (h : l.Pairwise R)
    {i j : Nat} {a b : α} (hij : i < j) (ha : l[i]? = some a) (hb : l[j]? = some b) : R a b := by
  rw [List.getElem?_eq_some_iff] at ha hb
  obtain ⟨hi, rfl⟩ := ha
  obtain ⟨hj, rfl⟩ := hb
  exact List.pairwise_iff_getElem.1 h i j hi hj hij

/-! ## Lemmas on the indexer -/

mutual
theorem BuildIndexHelper_acc : ∀ (node : FsNode) (path : CxxString) (index : List CxxString),
    BuildIndexHelper node path index = index ++ BuildIndexHelper node path []
  | .noStat, _, _ => by simp [BuildIndexHelper]
  | .file, _, _ => by simp [BuildIndexHelper]
  | .noOpen, _, _ => by simp [BuildIndexHelper]
  | .dir ents, path, index => by
    simp only [BuildIndexHelper]
    exact readLoop_acc ents path index
theorem readLoop_acc : ∀ (ents : List (CxxString × FsNode)) (path : CxxString)
    (index : List CxxString), readLoop ents path index = index ++ readLoop ents path []
  | [], _, _ => by simp [readLoop]
  | (file, node) :: rest, path, index => by
    have ih := readLoop_acc rest path
    simp only [readLoop]
    split
    · exact ih index
    · split
      · exact ih index
      · split
        · exact ih index
        · split
          · rw [ih (BuildIndexHelper node _ (index ++ _)), ih (BuildIndexHelper node _ ([] ++ _)),
              BuildIndexHelper_acc node _ (index ++ _), BuildIndexHelper_acc node _ ([] ++ _)]
            simp
          · rw [ih (index ++ _), ih ([] ++ _)]
            simp
end

theorem BuildIndexHelper_of_not_dir {node : FsNode} (h : S_ISDIR node = false)
    (path : CxxString) (index : List CxxString) : BuildIndexHelper node path index = index := by
  cases node <;> simp [BuildIndexHelper, S_ISDIR] at h ⊢

theorem readLoop_nil (path : CxxString) (index : List CxxString) :
    readLoop [] path index = index := by
  simp [readLoop]

theorem readLoop_cons_skip {file : CxxString} (h : skipsEntry file = true) (node : FsNode)
    (rest : List (CxxString × FsNode)) (path : CxxString) :
    readLoop ((file, node) :: rest) path [] = readLoop rest path [] := by
  simp only [skipsEntry, Bool.or_eq_true, decide_eq_true_eq] at h
  simp only [readLoop]
  rcases h with h | h
  · rw [if_pos h]
  · by_cases h1 : file = ".".toList ∨ file = "..".toList
    · rw [if_pos h1]
    · rw [if_neg h1, if_pos h]

theorem readLoop_cons_noStat {file : CxxString} {node : FsNode} (h : statFails node = true)
    (rest : List (CxxString × FsNode)) (path : CxxString) :
    readLoop ((file, node) :: rest) path [] = readLoop rest path [] := by
  simp only [readLoop, h, if_true]
  split
  · rfl
  · split <;> rfl

theorem readLoop_cons_entry {file : CxxString} {node : FsNode} (h : skipsEntry file = false)
    (hs : statFails node = false) (rest : List (CxxString × FsNode)) (path : CxxString) :
    readLoop ((file, node) :: rest) path [] =
      (path ++ "/".toList ++ file) :: (BuildIndexHelper node (path ++ "/".toList ++ file) [] ++
        readLoop rest path []) := by
  simp only [skipsEntry, Bool.or_eq_false_iff, decide_eq_false_iff_not] at h
  simp only [readLoop, if_neg h.1, if_neg h.2, hs, Bool.false_eq_true, if_false]
  split
  · rw [readLoop_acc, BuildIndexHelper_acc]
    simp
  · next hd =>
    rw [readLoop_acc, BuildIndexHelper_of_not_dir (by simpa using hd)]
    simp

theorem readLoop_append (path : CxxString) : ∀ (a b : List (CxxString × FsNode)),
    readLoop (a ++ b) path [] = readLoop a path [] ++ readLoop b path [] := by
  intro a b
  induction a with
  | nil => simp [readLoop_nil]
  | cons e a ih =>
    obtain ⟨file, node⟩ := e
    rw [List.cons_append]
    by_cases h : skipsEntry file = true
    · rw [readLoop_cons_skip h, readLoop_cons_skip h, ih]
    · by_cases hs : statFails node = true
      · rw [readLoop_cons_noStat hs, readLoop_cons_noStat hs, ih]
      · rw [readLoop_cons_entry (by simpa using h) (by simpa using hs),
          readLoop_cons_entry (by simpa using h) (by simpa using hs), ih]
        simp

theorem pathComponents_ne_nil : ∀ s : CxxString, pathComponents s ≠ [] := by
  intro s
  cases s with
  | nil => simp [pathComponents]
  | cons c rest =>
    by_cases hc : c = '/'
    · simp [pathComponents, hc]
    · simp only [pathComponents, if_neg hc]
      split <;> simp

theorem pathComponents_append_slash (b : CxxString) : ∀ a : CxxString,
    pathComponents (a ++ '/' :: b) = pathComponents a ++ pathComponents b := by
  intro a
  induction a with
  | nil => simp [pathComponents]
  | cons c a ih =>
    by_cases hc : c = '/'
    · simp [pathComponents, hc, ih]
    · have ih2 : pathComponents (a.append ('/' :: b)) = pathComponents a ++ pathComponents b := ih
      simp only [List.cons_append, pathComponents, if_neg hc]
      rw [ih2]
      cases hpa : pathComponents a with
      | nil => exact absurd hpa (pathComponents_ne_nil a)
      | cons comp comps => simp

theorem pathComponents_of_no_slash : ∀ s : CxxString, '/' ∉ s → pathComponents s = [s] := by
  intro s
  induction s with
  | nil => intro _; rfl
  | cons c s ih =>
    intro h
    simp only [List.mem_cons, not_or] at h
    have hc : ¬ c = '/' := fun e => h.1 e.symm
    simp [pathComponents, hc, ih h.2]

theorem pathComponents_entry (path file : CxxString) (h : '/' ∉ file) :
    pathComponents (path ++ "/".toList ++ file) = pathComponents path ++ [file] := by
  have e : path ++ "/".toList ++ file = path ++ '/' :: file := by
    simp [String.toList]
  rw [e, pathComponents_append_slash, pathComponents_of_no_slash file h]

mutual
theorem BuildIndexHelper_extends : ∀ (node : FsNode) (path : CxxString) (q : CxxString),
    q ∈ BuildIndexHelper node path [] → (path ++ "/".toList).IsPrefix q
  | .noStat, _, _ => by simp [BuildIndexHelper]
  | .file, _, _ => by simp [BuildIndexHelper]
  | .noOpen, _, _ => by simp [BuildIndexHelper]
  | .dir ents, path, q => by
    simp only [BuildIndexHelper]
    exact readLoop_extends ents path q
theorem readLoop_extends : ∀ (ents : List (CxxString × FsNode)) (path : CxxString)
    (q : CxxString), q ∈ readLoop ents path [] → (path ++ "/".toList).IsPrefix q
  | [], _, _ => by simp [readLoop]
  | (file, node) :: rest, path, q => by
    intro hq
    by_cases h : skipsEntry file = true
    · rw [readLoop_cons_skip h] at hq
      exact readLoop_extends rest path q hq
    · by_cases hs : statFails node = true
      · rw [readLoop_cons_noStat hs] at hq
        exact readLoop_extends rest path q hq
      · rw [readLoop_cons_entry (by simpa using h) (by simpa using hs)] at hq
        rcases List.mem_cons.1 hq with rfl | hq
        · exact ⟨file, rfl⟩
        · rcases List.mem_append.1 hq with hq | hq
          · obtain ⟨t, ht⟩ := BuildIndexHelper_extends node _ q hq
            exact ⟨file ++ "/".toList ++ t, by rw [← ht]; simp⟩
          · exact readLoop_extends rest path q hq
end

mutual
theorem BuildIndexHelper_components : ∀ (node : FsNode) (path : CxxString) (q : CxxString),
    namesWellFormed node = true → q ∈ BuildIndexHelper node path [] →
    ∃ names : List CxxString, names ≠ [] ∧
      pathComponents q = pathComponents path ++ names ∧ ∀ n ∈ names, skipsEntry n = false
  | .noStat, _, _ => by simp [BuildIndexHelper]
  | .file, _, _ => by simp [BuildIndexHelper]
  | .noOpen, _, _ => by simp [BuildIndexHelper]
  | .dir ents, path, q => by
    simp only [BuildIndexHelper, namesWellFormed]
    exact readLoop_components ents path q
theorem readLoop_components : ∀ (ents : List (CxxString × FsNode)) (path : CxxString)
    (q : CxxString), namesWellFormedEntries ents = true → q ∈ readLoop ents path [] →
    ∃ names : List CxxString, names ≠ [] ∧
      pathComponents q = pathComponents path ++ names ∧ ∀ n ∈ names, skipsEntry n = false
  | [], _, _ => by simp [readLoop]
  | (file, node) :: rest, path, q => by
    intro hw hq
    simp only [namesWellFormedEntries, Bool.and_eq_true, decide_eq_true_eq] at hw
    obtain ⟨⟨hfile, hnode⟩, hrest⟩ := hw
    by_cases h : skipsEntry file = true
    · rw [readLoop_cons_skip h] at hq
      exact readLoop_components rest path q hrest hq
    · by_cases hs : statFails node = true
      · rw [readLoop_cons_noStat hs] at hq
        exact readLoop_components rest path q hrest hq
      · have h0 : skipsEntry file = false := by simpa using h
        rw [readLoop_cons_entry h0 (by simpa using hs)] at hq
        rcases List.mem_cons.1 hq with rfl | hq
        · refine ⟨[file], by simp, pathComponents_entry path file hfile, ?_⟩
          intro n hn
          rw [List.mem_singleton.1 hn]
          exact h0
        · rcases List.mem_append.1 hq with hq | hq
          · obtain ⟨names, _, hpc, hall⟩ := BuildIndexHelper_components node _ q hnode hq
            refine ⟨file :: names, by simp, ?_, ?_⟩
            · rw [hpc, pathComponents_entry path file hfile]
              simp
            · intro n hn
              rcases List.mem_cons.1 hn with rfl | hn
              · exact h0
              · exact hall n hn
          · exact readLoop_components rest path q hrest hq
end

theorem FilterIndex_cons (f str : CxxString) (rest : List CxxString) :
    FilterIndex f (str :: rest) =
      if MatchesFilter f str < 0 then FilterIndex f rest
      else (MatchesFilter f str, str) :: FilterIndex f rest := by
  rw [FilterIndex_eq, FilterIndex_eq]
  by_cases h : MatchesFilter f str < 0
  · simp [List.filterMap_cons, h]
  · simp [List.filterMap_cons, h]

theorem FilterIndex_nil (f : CxxString) : FilterIndex f [] = [] := rfl

theorem occurrences_perm {α : Type} [DecidableEq α] {l l2 : List α} (h : l.Perm l2) (x : α) :
    occurrences x l = occurrences x l2 :=
  (h.filter _).length_eq

theorem occurrences_cons {α : Type} [DecidableEq α] (x a : α) (l : List α) :
    occurrences x (a :: l) = (if a = x then 1 else 0) + occurrences x l := by
  unfold occurrences
  by_cases h : a = x
  · simp [List.filter_cons, h]
    omega
  · simp [List.filter_cons, h]

theorem occurrences_eq_zero {α : Type} [DecidableEq α] {x : α} {l : List α} (h : x ∉ l) :
    occurrences x l = 0 := by
  unfold occurrences
  rw [List.length_eq_zero, List.filter_eq_nil_iff]
  intro a ha hax
  exact h (by rw [← of_decide_eq_true hax]; exact ha)

theorem occurrences_eq_one {α : Type} [DecidableEq α] {x : α} : ∀ {l : List α},
    l.Nodup → x ∈ l → occurrences x l = 1 := by
  intro l
  induction l with
  | nil => intro _ h; exact absurd h (List.not_mem_nil _)
  | cons a l ih =>
    intro hnd hx
    rw [List.nodup_cons] at hnd
    rw [occurrences_cons]
    by_cases hax : a = x
    · subst hax
      rw [if_pos rfl, occurrences_eq_zero hnd.1]
    · rw [if_neg hax, ih hnd.2 ((List.mem_cons.1 hx).resolve_left (fun e => hax e.symm))]

theorem FilterIndex_count {f p : CxxString} (h : 0 ≤ MatchesFilter f p) :
    ∀ index : List CxxString,
      occurrences (MatchesFilter f p, p) (FilterIndex f index) = occurrences p index ∧
      occurrences p ((FilterIndex f index).map Prod.snd) = occurrences p index := by
  intro index
  induction index with
  | nil => exact ⟨rfl, rfl⟩
  | cons a rest ih =>
    rw [FilterIndex_cons]
    by_cases hap : a = p
    · subst hap
      rw [if_neg (by omega)]
      simp [occurrences_cons, ih.1, ih.2]
    · by_cases hneg : MatchesFilter f a < 0
      · rw [if_pos hneg]
        simp [occurrences_cons, hap, ih.1, ih.2]
      · rw [if_neg hneg]
        simp [occurrences_cons, hap, ih.1, ih.2]

theorem FilterIndex_empty_filter (index : List CxxString) :
    FilterIndex [] index = index.map (fun p => ((0 : Int), p)) := by
  induction index with
  | nil => rfl
  | cons a rest ih =>
    rw [FilterIndex_cons, ih]
    simp [MatchesFilter, MatchesFilterLoop]

theorem perm_pair {α : Type} {a b : α} {l : List α} (h : l.Perm [a, b]) :
    l = [a, b] ∨ l = [b, a] := by
  have hlen := h.length_eq
  match l, hlen with
  | [x, y], _ =>
    have hx : x ∈ [a, b] := h.mem_iff.1 (by simp)
    rcases List.mem_pair.1 hx with rfl | rfl
    · have h2 := (List.perm_cons x).1 h
      rw [List.perm_singleton] at h2
      exact Or.inl (by rw [h2])
    · have h2 : [x, y].Perm [x, a] := h.trans (List.Perm.swap x a [])
      have h3 := (List.perm_cons x).1 h2
      rw [List.perm_singleton] at h3
      exact Or.inr (by rw [h3])

/-! ## The claims on the matcher -/

/-- C1.  For every filter `f` and every path `p` that an `int` can measure (fewer than `2^31`
characters; a path of the index has passed `stat` and has fewer than `PATH_MAX` characters):
`MatchesFilter f p` is non-negative if and only if `f` is a subsequence of `p`, and it is `-1`
otherwise; and `p` occurs in `FilterIndex f index` only if `f` is a subsequence of `p`. -/
theorem MatchesFilter_subsequence (f p : CxxString) (hp : p.length < 2 ^ 31) :
    (0 ≤ MatchesFilter f p ↔ f.Sublist p) ∧
    (¬ f.Sublist p → MatchesFilter f p = -1) ∧
    (∀ (index : List CxxString) (s : Int), (s, p) ∈ FilterIndex f index → f.Sublist p) := by
  refine ⟨⟨sublist_of_MatchesFilter_nonneg, MatchesFilter_nonneg_of_short hp⟩,
    MatchesFilter_eq_neg_one, ?_⟩
  intro index s hmem
  have h := mem_FilterIndex.1 hmem
  exact sublist_of_MatchesFilter_nonneg (by omega)

/-- C1, at a concrete input: for the filter `mn` and the path `./main.cc` the score is
non-negative exactly when the filter is a subsequence of the path. -/
theorem MatchesFilter_subsequence_witness :
    0 ≤ MatchesFilter "mn".toList "./main.cc".toList ↔
      "mn".toList.Sublist "./main.cc".toList :=
  (MatchesFilter_subsequence "mn".toList "./main.cc".toList (by decide)).1

/-- C4, as amended.  When the path `p` starts with the filter `f` the score is `0`; and for a path
shorter than `2^31` characters the score is `0` only then. -/
theorem MatchesFilter_startsWith (f p : CxxString) :
    (f.IsPrefix p → MatchesFilter f p = 0) ∧
    (p.length < 2 ^ 31 → MatchesFilter f p = 0 → f.IsPrefix p) := by
  constructor
  · rintro ⟨t, rfl⟩
    rw [MatchesFilter_eq, shortestPrefixLen_append_self]
    simp [toInt]
  · intro hp h0
    obtain ⟨e, he⟩ := @sublist_of_MatchesFilter_ne f p (by omega)
    have h := MatchesFilter_of_short hp he
    have hs := shortestPrefixLen_isShortest he
    have hlen : e = f.length := by omega
    have hsub := hs.2.1
    rw [hlen] at hsub
    have heq := hsub.eq_of_length_le (by simp)
    rw [heq]
    exact List.take_prefix _ _

/-- C4, at a concrete input: `main.cc` starts with `mai`, so the score is `0`. -/
theorem MatchesFilter_startsWith_witness : MatchesFilter "mai".toList "main.cc".toList = 0 :=
  (MatchesFilter_startsWith "mai".toList "main.cc".toList).1 ⟨"n.cc".toList, by decide⟩

/-- C4 fails as stated: `ba` contains `a`, and `aab` contains `ab`, as contiguous substrings, and
both scores are `1`. -/
theorem MatchesFilter_substring_nonzero :
    List.IsInfix "a".toList "ba".toList ∧ MatchesFilter "a".toList "ba".toList = 1 ∧
    List.IsInfix "ab".toList "aab".toList ∧ MatchesFilter "ab".toList "aab".toList = 1 :=
  ⟨⟨"b".toList, [], by decide⟩, by decide, ⟨"a".toList, [], by decide⟩, by decide⟩

/-- C10.  For every filter `f` and every path `p` that an `int` can measure (fewer than `2^31`
characters, as every path of the index is) on which `MatchesFilter` succeeds, the score is
`e - |f|` for the length `e` of the shortest prefix of `p` that has `f` as a subsequence (no
embedding of `f` in `p` ends earlier), and `0 ≤ score ≤ |p| - |f|`; the empty filter has `e = 0`;
and a filter longer than the path does not match. -/
theorem MatchesFilter_score (f p : CxxString) (hp : p.length < 2 ^ 31) :
    (MatchesFilter f p ≠ -1 →
      ∃ e, IsShortestPrefix f p e ∧ MatchesFilter f p = (e : Int) - (f.length : Int) ∧
        0 ≤ MatchesFilter f p ∧ MatchesFilter f p ≤ (p.length : Int) - (f.length : Int)) ∧
    IsShortestPrefix [] p 0 ∧
    (p.length < f.length → MatchesFilter f p = -1) := by
  refine ⟨?_, ⟨Nat.zero_le _, List.nil_sublist _, fun n _ => Nat.zero_le n⟩, ?_⟩
  · intro hne
    obtain ⟨e, he⟩ := sublist_of_MatchesFilter_ne hne
    have h := MatchesFilter_of_short hp he
    exact ⟨e, shortestPrefixLen_isShortest he, h.1, by omega, by omega⟩
  · intro hlen
    apply MatchesFilter_eq_neg_one
    intro hsub
    have := hsub.length_le
    omega

/-- C10, at a concrete input: on `main.cc` the filter `mn` is matched by the prefix `main` and by
no shorter one, and the score is `4 - 2`. -/
theorem MatchesFilter_score_witness :
    ∃ e, IsShortestPrefix "mn".toList "main.cc".toList e ∧
      MatchesFilter "mn".toList "main.cc".toList = (e : Int) - ("mn".toList.length : Int) ∧
      0 ≤ MatchesFilter "mn".toList "main.cc".toList ∧
      MatchesFilter "mn".toList "main.cc".toList ≤
        ("main.cc".toList.length : Int) - ("mn".toList.length : Int) :=
  (MatchesFilter_score "mn".toList "main.cc".toList (by decide)).1 (by decide)

/-! ## The claims on the ranker and on the pipeline -/

/-- C3.  `SortIndex` always has a result; in every result the scores ascend, that is, for output
positions `i < j` the score at `i` is at most the score at `j`; and the comparison looks at the
scores only, whatever the paths are. -/
theorem SortIndex_ascending (before : List (Int × CxxString)) :
    (∃ after, SortIndex before after) ∧
    (∀ after, SortIndex before after →
      ∀ (i j : Nat) (a b : Int × CxxString),
        i < j → after[i]? = some a → after[j]? = some b → a.1 ≤ b.1) ∧
    (∀ (s t : Int) (p q p2 q2 : CxxString),
      SortIndexComp (s, p) (t, q) = SortIndexComp (s, p2) (t, q2)) := by
  refine ⟨⟨stableRank before, SortIndex_stableRank before⟩, ?_, ?_⟩
  · intro after h i j a b hij ha hb
    exact pairwise_getElem? h.ascending hij ha hb
  · intro s t p q p2 q2
    rfl

/-- C3, at a concrete input: in a result of sorting `[(4, "./main.cc"), (0, "./m")]` the entry at
position 0 has a score that is at most the score of the entry at position 1. -/
theorem SortIndex_ascending_witness :
    ((0 : Int), "./m".toList).1 ≤ ((4 : Int), "./main.cc".toList).1 :=
  (SortIndex_ascending [(4, "./main.cc".toList), (0, "./m".toList)]).2.1
    [(0, "./m".toList), (4, "./main.cc".toList)]
    (SortIndex_of_perm_sorted (List.Perm.swap _ _ _) (by simp))
    0 1 _ _ (by decide) rfl rfl

/-- C6, as amended.  The ranker orders by score without a promise on ties: every result of
`SortIndex` on the output of `FilterIndex` holds, for each score, the same entries as the scoring
pass held with that score (as a permutation of them); the arrangement that keeps the order of the
scoring pass among equal scores is one of the results. -/
theorem SortIndex_ties (f : CxxString) (index : List CxxString) :
    (∃ out, SortIndex (FilterIndex f index) out ∧ KeepsTieOrder (FilterIndex f index) out) ∧
    ∀ out, SortIndex (FilterIndex f index) out →
      ∀ s : Int, (entriesOfScore s out).Perm (entriesOfScore s (FilterIndex f index)) := by
  refine ⟨⟨stableRank _, SortIndex_stableRank _, stableRank_keepsTieOrder _⟩, ?_⟩
  intro out h s
  exact h.perm.filter _

/-- C6, at a concrete input: the reversed list is a result of sorting the two entries that the
empty filter gives the index `a`, `b`, and it holds the same entries of score `0`. -/
theorem SortIndex_ties_witness :
    (entriesOfScore 0 [((0 : Int), "b".toList), (0, "a".toList)]).Perm
      (entriesOfScore 0 (FilterIndex [] ["a".toList, "b".toList])) :=
  (SortIndex_ties [] ["a".toList, "b".toList]).2 [(0, "b".toList), (0, "a".toList)]
    (SortIndex_of_perm_sorted (List.Perm.swap _ _ _) (by simp)) 0

/-- C6 fails as stated: for the index `a`, `b` and the empty filter both entries score `0`, and
the list that holds them in the opposite order is a result of `SortIndex`, which does not keep
the order of the scoring pass.  The same holds for the seventeen paths of `seventeenPaths`, all
of score `0`, and the rearrangement `seventeenRanked` of them. -/
theorem SortIndex_not_stable :
    (FilterIndex [] ["a".toList, "b".toList] = [(0, "a".toList), (0, "b".toList)] ∧
      SortIndex (FilterIndex [] ["a".toList, "b".toList]) [(0, "b".toList), (0, "a".toList)] ∧
      ¬ KeepsTieOrder (FilterIndex [] ["a".toList, "b".toList])
          [(0, "b".toList), (0, "a".toList)]) ∧
    (SortIndex (FilterIndex [] seventeenPaths) seventeenRanked ∧
      ¬ KeepsTieOrder (FilterIndex [] seventeenPaths) seventeenRanked) := by
  decide

/-- C5.  The empty filter scores every path `0`; `FilterIndex` with the empty filter is the index
with every path paired with `0`, in the same order; `SortIndex` has a result on it, and every
result holds exactly the entries of the index (the paths of the result are a permutation of the
index, so each indexed path occurs as often as in the index: once when the index has no
duplicates), each with score `0`. -/
theorem empty_filter (index : List CxxString) :
    (∀ p : CxxString, MatchesFilter [] p = 0) ∧
    FilterIndex [] index = index.map (fun p => ((0 : Int), p)) ∧
    (∃ out, SortIndex (FilterIndex [] index) out) ∧
    ∀ out, SortIndex (FilterIndex [] index) out →
      (out.map Prod.snd).Perm index ∧ (∀ e ∈ out, e.1 = 0) ∧
      (∀ p, occurrences (0, p) out = occurrences p index) ∧
      (index.Nodup → ∀ p ∈ index, occurrences (0, p) out = 1) := by
  have hcount : ∀ out, SortIndex (FilterIndex [] index) out →
      ∀ p, occurrences (0, p) out = occurrences p index := by
    intro out h p
    rw [occurrences_perm h.perm]
    exact (@FilterIndex_count [] p (le_refl (0 : Int)) index).1
  refine ⟨fun p => rfl, FilterIndex_empty_filter index, ⟨_, SortIndex_stableRank _⟩, ?_⟩
  intro out h
  refine ⟨?_, ?_, hcount out h, ?_⟩
  · have h2 := h.perm.map Prod.snd
    rw [FilterIndex_empty_filter] at h2
    simpa using h2
  · intro e he
    have h2 := h.perm.mem_iff.1 he
    rw [FilterIndex_empty_filter] at h2
    obtain ⟨p, _, rfl⟩ := List.mem_map.1 h2
    rfl
  · intro hnd p hp
    rw [hcount out h p]
    exact occurrences_eq_one hnd hp

/-- C5, at a concrete input: in a sorted result for the index `b`, `a` the path `a` occurs, with
score `0`, as often as in the index. -/
theorem empty_filter_witness :
    occurrences ((0 : Int), "a".toList) [((0 : Int), "a".toList), (0, "b".toList)] =
      occurrences "a".toList ["b".toList, "a".toList] :=
  ((empty_filter ["b".toList, "a".toList]).2.2.2 [(0, "a".toList), (0, "b".toList)]
    (SortIndex_of_perm_sorted (List.Perm.swap _ _ _) (by simp))).2.2.1 "a".toList

/-- C2.  For every filter `f` and every index whose paths an `int` can measure (fewer than
`2^31` characters each, as all paths that passed `stat` are): `SortIndex` has a result on the
output of `FilterIndex`, and in every such result each entry is a path of the index paired with
its score `MatchesFilter f p`, and the filter is a subsequence of it; a path of which the filter
is no subsequence does not occur; and every path of the index of which the filter is a
subsequence occurs exactly as often as it occurs in the index (once when the index has no
duplicates), each time paired with the score `MatchesFilter f p`. -/
theorem ranked_result (f : CxxString) (index : List CxxString)
    (hidx : ∀ p ∈ index, p.length < 2 ^ 31) :
    (∃ out, SortIndex (FilterIndex f index) out) ∧
    ∀ out, SortIndex (FilterIndex f index) out →
      (∀ e ∈ out, e.2 ∈ index ∧ e.1 = MatchesFilter f e.2 ∧ f.Sublist e.2) ∧
      (∀ p, ¬ f.Sublist p → p ∉ out.map Prod.snd) ∧
      (∀ p ∈ index, f.Sublist p →
        occurrences (MatchesFilter f p, p) out = occurrences p index ∧
        occurrences p (out.map Prod.snd) = occurrences p index) ∧
      (index.Nodup → ∀ p ∈ index, f.Sublist p → occurrences p (out.map Prod.snd) = 1) := by
  refine ⟨⟨_, SortIndex_stableRank _⟩, ?_⟩
  intro out h
  have hmem : ∀ e ∈ out, e.2 ∈ index ∧ e.1 = MatchesFilter f e.2 ∧ f.Sublist e.2 := by
    intro e he
    have h2 : (e.1, e.2) ∈ FilterIndex f index := h.perm.mem_iff.1 he
    have h3 := mem_FilterIndex.1 h2
    exact ⟨h3.1, h3.2.1, sublist_of_MatchesFilter_nonneg (by omega)⟩
  have hocc : ∀ p ∈ index, f.Sublist p →
      occurrences (MatchesFilter f p, p) out = occurrences p index ∧
      occurrences p (out.map Prod.snd) = occurrences p index := by
    intro p hp hsub
    have h0 := MatchesFilter_nonneg_of_short (hidx p hp) hsub
    have hc := FilterIndex_count h0 index
    exact ⟨by rw [occurrences_perm h.perm]; exact hc.1,
      by rw [occurrences_perm (h.perm.map Prod.snd)]; exact hc.2⟩
  refine ⟨hmem, ?_, hocc, ?_⟩
  · intro p hp hin
    obtain ⟨e, he, rfl⟩ := List.mem_map.1 hin
    exact hp (hmem e he).2.2
  · intro hnd p hp hsub
    rw [(hocc p hp hsub).2]
    exact occurrences_eq_one hnd hp

/-- C2, at a concrete input: in the sorted result for the filter `m` and the index `am`, `m`
the path `am` occurs once, paired with its score, as it does in the index. -/
theorem ranked_result_witness :
    occurrences (MatchesFilter "m".toList "am".toList, "am".toList)
        [((0 : Int), "m".toList), (1, "am".toList)] =
      occurrences "am".toList ["am".toList, "m".toList] ∧
    occurrences "am".toList ([((0 : Int), "m".toList), (1, "am".toList)].map Prod.snd) =
      occurrences "am".toList ["am".toList, "m".toList] :=
  ((ranked_result "m".toList ["am".toList, "m".toList] (by decide)).2
    [(0, "m".toList), (1, "am".toList)] (by decide)).2.2.1 "am".toList (by decide) (by decide)

/-! ## The claims on the indexer -/

theorem not_mem_ignore_list_of_skipsEntry {n : CxxString} (h : skipsEntry n = false) :
    n ∉ ignore_list := by
  simp only [skipsEntry, Bool.or_eq_false_iff, decide_eq_false_iff_not] at h
  exact h.2

theorem readLoop_mem_split (path : CxxString) : ∀ (ents : List (CxxString × FsNode))
    (q : CxxString), q ∈ readLoop ents path [] →
    ∃ before name node after, ents = before ++ (name, node) :: after ∧
      skipsEntry name = false ∧ statFails node = false ∧
      (q = path ++ "/".toList ++ name ∨ q ∈ BuildIndexHelper node (path ++ "/".toList ++ name) [])
    := by
  intro ents
  induction ents with
  | nil => intro q hq; simp [readLoop] at hq
  | cons e rest ih =>
    obtain ⟨file, node⟩ := e
    intro q hq
    have hrest : q ∈ readLoop rest path [] →
        ∃ before name nd after, (file, node) :: rest = before ++ (name, nd) :: after ∧
          skipsEntry name = false ∧ statFails nd = false ∧
          (q = path ++ "/".toList ++ name ∨
            q ∈ BuildIndexHelper nd (path ++ "/".toList ++ name) []) := by
      intro h
      obtain ⟨before, name, nd, after, h1, h2, h3, h4⟩ := ih q h
      exact ⟨(file, node) :: before, name, nd, after, by rw [h1]; rfl, h2, h3, h4⟩
    by_cases h : skipsEntry file = true
    · rw [readLoop_cons_skip h] at hq
      exact hrest hq
    · by_cases hs : statFails node = true
      · rw [readLoop_cons_noStat hs] at hq
        exact hrest hq
      · have h0 : skipsEntry file = false := by simpa using h
        have hs0 : statFails node = false := by simpa using hs
        rw [readLoop_cons_entry h0 hs0] at hq
        rcases List.mem_cons.1 hq with hq | hq
        · exact ⟨[], file, node, rest, rfl, h0, hs0, Or.inl hq⟩
        · rcases List.mem_append.1 hq with hq | hq
          · exact ⟨[], file, node, rest, rfl, h0, hs0, Or.inr hq⟩
          · exact hrest hq

/-- C9.  In the index of a directory, an entry whose name the walk does not skip and whose `stat`
succeeds is indexed as the directory's path joined with `/` and the entry's name; it stands
right behind everything indexed for the entries listed before it, is followed at once by the
index of its own subtree (every path of which starts with the entry's path and `/`), and only
then by what is indexed for the entries listed after it.  Every path of the index arises in this
way.  As this holds for the directory at any path, it holds at every depth of the walk.  Opens
and stats elsewhere in the tree need not succeed for it. -/
theorem BuildIndex_preorder (ents : List (CxxString × FsNode)) (path : CxxString) :
    (∀ before name node after, ents = before ++ (name, node) :: after →
      skipsEntry name = false → statFails node = false →
      BuildIndex (.dir ents) path =
        BuildIndex (.dir before) path ++ (path ++ "/".toList ++ name) ::
          (BuildIndex node (path ++ "/".toList ++ name) ++ BuildIndex (.dir after) path) ∧
      ∀ q ∈ BuildIndex node (path ++ "/".toList ++ name),
        (path ++ "/".toList ++ name ++ "/".toList).IsPrefix q) ∧
    (∀ q ∈ BuildIndex (.dir ents) path,
      ∃ before name node after, ents = before ++ (name, node) :: after ∧
        skipsEntry name = false ∧ statFails node = false ∧
        (q = path ++ "/".toList ++ name ∨ q ∈ BuildIndex node (path ++ "/".toList ++ name))) := by
  constructor
  · intro before name node after hents hname hstat
    subst hents
    constructor
    · simp only [BuildIndex, BuildIndexHelper]
      rw [readLoop_append, readLoop_cons_entry hname hstat]
    · intro q hq
      exact BuildIndexHelper_extends node _ q hq
  · intro q hq
    simp only [BuildIndex, BuildIndexHelper] at hq
    exact readLoop_mem_split path ents q hq

/-- C9, at a concrete input: the directory `.` lists the file `x`, the directory `a` that holds
the file `b`, and the file `c`; the index is `./x`, `./a`, `./a/b`, `./c`. -/
theorem BuildIndex_preorder_witness :
    BuildIndex (.dir [("x".toList, .file), ("a".toList, .dir [("b".toList, .file)]),
        ("c".toList, .file)]) ".".toList =
      BuildIndex (.dir [("x".toList, .file)]) ".".toList ++ (".".toList ++ "/".toList ++ "a".toList) ::
        (BuildIndex (.dir [("b".toList, .file)]) (".".toList ++ "/".toList ++ "a".toList) ++
          BuildIndex (.dir [("c".toList, .file)]) ".".toList) :=
  ((BuildIndex_preorder [("x".toList, .file), ("a".toList, .dir [("b".toList, .file)]),
        ("c".toList, .file)] ".".toList).1
    [("x".toList, .file)] "a".toList (.dir [("b".toList, .file)]) [("c".toList, .file)]
    rfl (by decide) rfl).1

/-- C7, as amended.  When no entry name in the tree contains `/`, every path of
`BuildIndex root path` is made of the components of the root path followed by one or more
components none of which is in the ignore set; so, when no component of the root path itself is
in the ignore set, no indexed path has a base name in the ignore set or lies below a directory
whose base name is in the ignore set. -/
theorem BuildIndex_ignores (root : FsNode) (path : CxxString)
    (hw : namesWellFormed root = true) :
    ∀ p ∈ BuildIndex root path,
      (∃ names : List CxxString, names ≠ [] ∧
        pathComponents p = pathComponents path ++ names ∧ ∀ n ∈ names, n ∉ ignore_list) ∧
      ((∀ c ∈ pathComponents path, c ∉ ignore_list) →
        ∀ c ∈ pathComponents p, c ∉ ignore_list) := by
  intro p hp
  obtain ⟨names, hne, hpc, hall⟩ := BuildIndexHelper_components root path p hw hp
  refine ⟨⟨names, hne, hpc, fun n hn => not_mem_ignore_list_of_skipsEntry (hall n hn)⟩, ?_⟩
  intro hroot c hc
  rw [hpc] at hc
  rcases List.mem_append.1 hc with hc | hc
  · exact hroot c hc
  · exact not_mem_ignore_list_of_skipsEntry (hall c hc)

/-- C7, at a concrete input: in the directory of scenario 1, indexed from the root path `.`, the
base name of the indexed path `./main.cc` is not in the ignore set. -/
theorem BuildIndex_ignores_witness : "main.cc".toList ∉ ignore_list :=
  (BuildIndex_ignores (.dir scenario1) ".".toList (by decide) "./main.cc".toList
    (by decide)).2 (by decide) "main.cc".toList (by decide)

/-- C7 fails as stated: indexed from the root path `.git`, a directory that holds the file
`config` yields the path `.git/config`, which lies below a directory whose base name `.git` is in
the ignore set. -/
theorem BuildIndex_root_in_ignore_list :
    BuildIndex (.dir [(".".toList, .dir []), ("..".toList, .dir []), ("config".toList, .file)])
        ".git".toList = [".git/config".toList] ∧
    pathComponents ".git/config".toList = [".git".toList, "config".toList] ∧
    ".git".toList ∈ ignore_list := by
  decide

theorem shortestPrefixLen_append_of_not_mem (c : Char) (g t : CxxString) : ∀ r : CxxString,
    c ∉ r → shortestPrefixLen (c :: g) (r ++ t) =
      (shortestPrefixLen (c :: g) t).map (· + r.length) := by
  intro r
  induction r with
  | nil => intro _; simp
  | cons x r ih =>
    intro h
    simp only [List.mem_cons, not_or] at h
    have hx : ¬ x = c := fun e => h.1 e.symm
    rw [List.cons_append, shortestPrefixLen, if_neg hx, ih h.2, Option.map_map]
    congr 1

theorem readLoop_files (path : CxxString) : ∀ ents : List (CxxString × FsNode),
    (∀ e ∈ ents, skipsEntry e.1 = true ∨ e.2 = FsNode.file) →
    readLoop ents path [] =
      (ents.filter (fun e => !skipsEntry e.1)).map (fun e => path ++ "/".toList ++ e.1) := by
  intro ents
  induction ents with
  | nil => intro _; simp [readLoop]
  | cons e rest ih =>
    obtain ⟨file, node⟩ := e
    intro h
    have ih2 := ih (fun e he => h e (List.mem_cons_of_mem _ he))
    by_cases hskip : skipsEntry file = true
    · rw [readLoop_cons_skip hskip, ih2]
      simp [List.filter_cons, hskip]
    · have hfile : node = FsNode.file := (h (file, node) (List.mem_cons_self _ _)).resolve_left hskip
      subst hfile
      have h0 : skipsEntry file = false := by simpa using hskip
      have hst : statFails FsNode.file = false := rfl
      rw [readLoop_cons_entry h0 hst, ih2]
      simp [List.filter_cons, h0, BuildIndexHelper]

theorem scenario1_files : ∀ e ∈ scenario1, skipsEntry e.1 = true ∨ e.2 = FsNode.file := by
  intro e he
  simp only [scenario1, List.mem_cons, List.mem_singleton, List.not_mem_nil, or_false] at he
  rcases he with rfl | rfl | rfl | rfl | rfl
  · exact Or.inl (by decide)
  · exact Or.inl (by decide)
  · exact Or.inr rfl
  · exact Or.inr rfl
  · exact Or.inl (by decide)

theorem scenario1_filter :
    scenario1.filter (fun e => !skipsEntry e.1) =
      [("main.cc".toList, FsNode.file), ("README.md".toList, FsNode.file)] := by
  rfl

theorem shortestPrefixLen_pair_append (c d : Char) (t : CxxString) (v : Option Nat)
    (h2 : shortestPrefixLen [c, d] t = v) (h1 : shortestPrefixLen [d] t = v) :
    ∀ r : CxxString, ¬ [c, d].Sublist r →
      shortestPrefixLen [c, d] (r ++ t) = v.map (· + r.length) := by
  intro r
  induction r with
  | nil => intro _; simp [h2]
  | cons x r ih =>
    intro hns
    by_cases hx : x = c
    · subst hx
      have hd : d ∉ r := by
        intro hmem
        exact hns (List.cons_sublist_cons.2 (List.singleton_sublist.2 hmem))
      rw [List.cons_append, shortestPrefixLen, if_pos rfl,
        shortestPrefixLen_append_of_not_mem d [] t r hd, h1, Option.map_map]
      congr 1
    · have hr : ¬ [c, d].Sublist r := fun h => hns (h.trans (List.sublist_cons_self x r))
      rw [List.cons_append, shortestPrefixLen, if_neg hx, ih hr, Option.map_map]
      congr 1

theorem MatchesFilter_main_cc (r : CxxString) (hns : ¬ "mn".toList.Sublist r)
    (hlen : r.length + 3 < 2 ^ 31) :
    MatchesFilter "mn".toList (r ++ "/".toList ++ "main.cc".toList) = (r.length : Int) + 3 := by
  have e : "mn".toList = ['m', 'n'] := rfl
  rw [e] at hns
  rw [MatchesFilter_eq, List.append_assoc, e,
    shortestPrefixLen_pair_append 'm' 'n' _ (some 5) (by decide) (by decide) r hns]
  simp only [Option.map_some', List.length_cons, List.length_singleton, List.length_nil]
  rw [toInt_of_range (by omega) (by omega)]
  omega

theorem MatchesFilter_README_md (r : CxxString) (hns : ¬ "mn".toList.Sublist r) :
    MatchesFilter "mn".toList (r ++ "/".toList ++ "README.md".toList) = -1 := by
  have e : "mn".toList = ['m', 'n'] := rfl
  rw [e] at hns
  rw [MatchesFilter_eq, List.append_assoc, e,
    shortestPrefixLen_pair_append 'm' 'n' _ none (by decide) (by decide) r hns]
  rfl

/-- C8, as amended.  For a root path `r` short enough for both files to pass `stat`
(`|r| + 10 < PATH_MAX`) and the directory of scenario 1 in any listing order: `BuildIndex` yields
exactly the two paths `r/main.cc` and `r/README.md`, none for `.git` or `.git/config`.
`FilterIndex` with the filter `mn` scores the full paths: when `mn` is no subsequence of `r`, it
keeps the `main.cc` entry alone, with the score `|r| + 3`, and drops the `README.md` entry; when
`mn` is a subsequence of `r`, the `README.md` entry is kept too.  The score `2` is the one of the
bare name `main.cc`, which `README.md` as a bare name does not match. -/
theorem scenario1_result (r : CxxString) (ents : List (CxxString × FsNode))
    (hperm : ents.Perm scenario1) (hlen : r.length + 10 < PATH_MAX) :
    (BuildIndex (.dir ents) r).Perm
      [r ++ "/".toList ++ "main.cc".toList, r ++ "/".toList ++ "README.md".toList] ∧
    (¬ "mn".toList.Sublist r →
      FilterIndex "mn".toList (BuildIndex (.dir ents) r) =
        [((r.length : Int) + 3, r ++ "/".toList ++ "main.cc".toList)]) ∧
    ("mn".toList.Sublist r →
      ∃ s, (s, r ++ "/".toList ++ "README.md".toList) ∈
        FilterIndex "mn".toList (BuildIndex (.dir ents) r)) ∧
    MatchesFilter "mn".toList "main.cc".toList = 2 ∧
    MatchesFilter "mn".toList "README.md".toList = -1 := by
  have hlen2 : r.length + 10 < 4096 := hlen
  have hfiles : ∀ e ∈ ents, skipsEntry e.1 = true ∨ e.2 = FsNode.file :=
    fun e he => scenario1_files e (hperm.mem_iff.1 he)
  have hidx : BuildIndex (.dir ents) r =
      (ents.filter (fun e => !skipsEntry e.1)).map (fun e => r ++ "/".toList ++ e.1) := by
    simp only [BuildIndex, BuildIndexHelper]
    exact readLoop_files r ents hfiles
  have hp2 := hperm.filter (fun e => !skipsEntry e.1)
  rw [scenario1_filter] at hp2
  have hpi : (BuildIndex (.dir ents) r).Perm
      [r ++ "/".toList ++ "main.cc".toList, r ++ "/".toList ++ "README.md".toList] := by
    rw [hidx]
    exact hp2.map _
  refine ⟨hpi, ?_, ?_, by decide, by decide⟩
  · intro hns
    have h1 := MatchesFilter_main_cc r hns (by omega)
    have h2 := MatchesFilter_README_md r hns
    rw [hidx]
    rcases perm_pair hp2 with h | h
    · rw [h]
      simp only [List.map_cons, List.map_nil]
      rw [FilterIndex_cons, FilterIndex_cons, h1, h2, if_neg (by omega), if_pos (by decide)]
      rfl
    · rw [h]
      simp only [List.map_cons, List.map_nil]
      rw [FilterIndex_cons, FilterIndex_cons, h1, h2, if_pos (by decide), if_neg (by omega)]
      rfl
  · intro hsub
    have hsub2 : "mn".toList.Sublist (r ++ "/".toList ++ "README.md".toList) :=
      hsub.trans ((List.sublist_append_left r _).trans (List.sublist_append_left _ _))
    have hshort : (r ++ "/".toList ++ "README.md".toList).length < 2 ^ 31 := by
      have e1 : "/".toList.length = 1 := rfl
      have e2 : "README.md".toList.length = 9 := rfl
      rw [List.length_append, List.length_append, e1, e2]
      omega
    have h0 := MatchesFilter_nonneg_of_short hshort hsub2
    exact ⟨_, mem_FilterIndex.2 ⟨hpi.mem_iff.2 (by simp), rfl, h0⟩⟩

/-- C8, at a concrete input: the root path `.` and the listing order of `scenario1`. -/
theorem scenario1_result_witness :
    FilterIndex "mn".toList (BuildIndex (.dir scenario1) ".".toList) =
      [((".".toList.length : Int) + 3, ".".toList ++ "/".toList ++ "main.cc".toList)] :=
  (scenario1_result ".".toList scenario1 (List.Perm.refl _) (by decide)).2.1 (by decide)

/-- C8 fails as stated: indexed from the root path `.`, the `main.cc` entry of scenario 1 is the
path `./main.cc`, and `FilterIndex` gives it the score `4`, not `2`. -/
theorem scenario1_score_is_four :
    BuildIndex (.dir scenario1) ".".toList = ["./main.cc".toList, "./README.md".toList] ∧
    FilterIndex "mn".toList (BuildIndex (.dir scenario1) ".".toList) =
      [(4, "./main.cc".toList)] := by
  decide

end Fidx
